import Mathlib

/-!
# connectors: the bandwidth-throttling connection `LatencyConn`

A shallow embedding of `latencyconn.go`.

* `anyError`, `LatencyConn.Close`, `LatencyConn.Read`, `LatencyConn.Write`,
  `NewLatencyConn`, `backgroundWriter` and `backgroundReader` follow the Go
  functions of the same name.
* The Go standard library the file calls is embedded next to it:
  `io.LimitedReader.Read`, the generic loop of `io.Copy` (`copyBuffer`), the
  close state of `io.Pipe` and `time.NewTicker`.
* The outside world (what the reads of a source answer, what the writes of a
  sink answer) is a finite script: one entry per call.  A call for which the
  script has no entry does not return during the observation (`blocked`).
* The unbounded loops of the Go code take a budget: `ticks` is the number of
  ticks the ticker delivers, `fuel` the number of `io.Copy` calls observed
  inside one tick.
-/

namespace Connectors

/-- A byte of a stream; its value never influences control flow. -/
abbrev Byte := Nat

/-- Go `error` values that are not nil.  `EOF`, `ErrShortWrite` and
`ErrClosedPipe` are the sentinels of package `io`; `other` is any error of
the wrapped connection. -/
inductive Error where
  | EOF
  | ErrShortWrite
  | ErrClosedPipe
  | other (code : Nat)
  deriving DecidableEq, Repr

/-! ## Sources and sinks -/

/-- Answer of the source to one `Read` call: it hands over at most `avail`
bytes (never more than the caller asked for, never more than the stream
holds) together with `err`. -/
structure ReadEvent where
  avail : Nat
  err : Option Error
  deriving DecidableEq, Repr

/-- An `io.Reader`: the bytes it will deliver, in order, and how it answers
its next `Read` calls. -/
structure Reader where
  stream : List Byte
  script : List ReadEvent
  deriving DecidableEq, Repr

/-- Answer of the sink to one `Write` call: it takes at most `accept` bytes
of the slice and answers `err`. -/
structure WriteEvent where
  accept : Nat
  err : Option Error
  deriving DecidableEq, Repr

/-- An `io.Writer`: the bytes it has received so far, in order, and how it
answers its next `Write` calls. -/
structure Writer where
  received : List Byte
  script : List WriteEvent
  deriving DecidableEq, Repr

/-- Buffer that `io.Copy` allocates: `32 * 1024` bytes. -/
def bufSize : Nat := 32 * 1024

/-- Length of the slice that reaches the underlying reader when
`LimitedReader.Read` is called with the copy buffer and `N > 0` bytes are
left: `if int64(len(p)) > l.N { p = p[0:l.N] }`. -/
def sliceLen (N : Int) : Nat := min bufSize N.toNat

/-- Number of bytes one `Read` call returns: `0 <= n <= len(p)`. -/
def ReadEvent.count (ev : ReadEvent) (stream : List Byte) (len : Nat) : Nat :=
  min (min ev.avail len) stream.length

/-- Result of `Writer.Write(p)`: `none` when the script is exhausted (the
call does not return), otherwise the count `nw`, the error and the sink
afterwards. -/
def Writer.Write (w : Writer) (p : List Byte) : Option (Nat × Option Error × Writer) :=
  match w.script with
  | [] => none
  | ev :: rest =>
    let nw := min ev.accept p.length
    some (nw, ev.err, { received := w.received ++ p.take nw, script := rest })

/-- How a call of `io.Copy` ends. -/
inductive CopyStatus where
  | returned (err : Option Error)
  | blocked
  deriving DecidableEq, Repr

/-- State at the end of an `io.Copy` call. -/
structure CopyOut where
  written : Int
  status : CopyStatus
  src : Reader
  dst : Writer
  deriving DecidableEq, Repr

/-- The generic loop of `io.Copy(dst, io.LimitReader(src, N))`, by recursion
on the script of the source (each `Read` of the source consumes one entry).

```go
for {
    nr, er := src.Read(buf)          // LimitedReader.Read
    if nr > 0 {
        nw, ew := dst.Write(buf[0:nr])
        written += int64(nw)
        if ew != nil { err = ew; break }
        if nr != nw { err = ErrShortWrite; break }
    }
    if er != nil {
        if er != EOF { err = er }
        break
    }
}
return written, err
```
with `LimitedReader.Read`: `if l.N <= 0 { return 0, EOF }`, then the slice
is cut to `l.N`, the source is read and `l.N -= n`.  A sink that has a
`ReadFrom` of its own (a TCP connection) ends in this same loop when the
source is not a file.  All counts stay between `0` and `N`, so `int64`
arithmetic never wraps and `Int` is exact. -/
def copyBuffer (dst : Writer) (stream : List Byte) (N : Int) (written : Int) :
    List ReadEvent → CopyOut
  | [] =>
    if N ≤ 0 then ⟨written, .returned none, ⟨stream, []⟩, dst⟩
    else ⟨written, .blocked, ⟨stream, []⟩, dst⟩
  | ev :: rest =>
    if N ≤ 0 then ⟨written, .returned none, ⟨stream, ev :: rest⟩, dst⟩
    else
      let nr := ev.count stream (sliceLen N)
      let src : Reader := ⟨stream.drop nr, rest⟩
      if 0 < nr then
        match dst.Write (stream.take nr) with
        | none => ⟨written, .blocked, src, dst⟩
        | some (nw, ew, dst1) =>
          match ew with
          | some e => ⟨written + nw, .returned (some e), src, dst1⟩
          | none =>
            if nr ≠ nw then ⟨written + nw, .returned (some .ErrShortWrite), src, dst1⟩
            else
              match ev.err with
              | some .EOF => ⟨written + nw, .returned none, src, dst1⟩
              | some e => ⟨written + nw, .returned (some e), src, dst1⟩
              | none => copyBuffer dst1 (stream.drop nr) (N - nr) (written + nw) rest
      else
        match ev.err with
        | some .EOF => ⟨written, .returned none, src, dst⟩
        | some e => ⟨written, .returned (some e), src, dst⟩
        | none => copyBuffer dst (stream.drop nr) (N - nr) written rest

/-- The call `io.Copy(dst, io.LimitReader(src, N))`. -/
def Copy (dst : Writer) (src : Reader) (N : Int) : CopyOut :=
  copyBuffer dst src.stream N 0 src.script

/-! ## The close state of `io.Pipe` -/

/-- What both ends of one `io.Pipe()` share about closing (`io/pipe.go` of
the Go standard library): `rerr` is the error stored by closing the read end,
`werr` the error stored by closing the write end (each is a store-once cell,
`onceError`).  The channel `done` of the Go code is closed exactly when one
of them is set. -/
structure Pipe where
  rerr : Option Error
  werr : Option Error
  deriving DecidableEq, Repr

/-- The method `onceError.Store`: only the first stored error is kept. -/
def onceStore (cell : Option Error) (err : Error) : Option Error :=
  match cell with
  | some e => some e
  | none => some err

/-- The channel `done` is closed. -/
def Pipe.done (p : Pipe) : Bool := p.rerr.isSome || p.werr.isSome

/-- The method `pipe.closeRead(err)` behind `PipeReader.Close` and
`PipeReader.CloseWithError`: a nil `err` becomes `ErrClosedPipe`. -/
def Pipe.closeRead (p : Pipe) (err : Option Error) : Pipe :=
  { p with rerr := onceStore p.rerr (err.getD .ErrClosedPipe) }

/-- The method `pipe.closeWrite(err)` behind `PipeWriter.Close`: a nil `err`
becomes `EOF`. -/
def Pipe.closeWrite (p : Pipe) (err : Option Error) : Pipe :=
  { p with werr := onceStore p.werr (err.getD .EOF) }

/-- The method `pipe.readCloseError`: the error a read on a closed pipe
returns. -/
def Pipe.readCloseError (p : Pipe) : Error :=
  match p.rerr, p.werr with
  | none, some werr => werr
  | _, _ => .ErrClosedPipe

/-- The method `pipe.writeCloseError`: the error a write on a closed pipe
returns. -/
def Pipe.writeCloseError (p : Pipe) : Error :=
  match p.werr, p.rerr with
  | none, some rerr => rerr
  | _, _ => .ErrClosedPipe

/-- Result of a `Read` or `Write` of the decorator: `returns n err` when the
call returns `(n, err)` at once; `waits` when the pipe is open, so that the
call waits for the counterpart on the other end, which decides its result.
A call on a closed pipe changes nothing in the pipe. -/
inductive CallResult where
  | returns (n : Nat) (err : Error)
  | waits
  deriving DecidableEq, Repr

/-- The method `pipe.read`: on a closed pipe `(0, readCloseError())`. -/
def Pipe.read (p : Pipe) : CallResult :=
  if p.done then .returns 0 p.readCloseError else .waits

/-- The method `pipe.write`: on a closed pipe `(0, writeCloseError())`. -/
def Pipe.write (p : Pipe) : CallResult :=
  if p.done then .returns 0 p.writeCloseError else .waits

/-! ## The decorator -/

/-- The five resources `Close` tears down. -/
inductive Teardown where
  | externalWriter
  | internalWriter
  | internalReader
  | externalReader
  | wrappedConnection
  deriving DecidableEq, Repr

/-- The type `LatencyConn`.  `internal` is the pipe behind `internalReader`
and `internalWriter`, `external` the pipe behind `externalReader` and
`externalWriter`; `closed` lists the `Close` calls the five resources have
received, oldest first. -/
structure LatencyConn where
  lineRate : Int
  quantum : Int
  internal : Pipe
  external : Pipe
  closed : List Teardown
  deriving DecidableEq, Repr

/-- The function `anyError`: the first error that is not nil. -/
def anyError : List (Option Error) → Option Error
  | [] => none
  | e :: errs => if e ≠ none then e else anyError errs

/-- The method `Read`: `lc.internalReader.Read(b)`. -/
def LatencyConn.Read (lc : LatencyConn) : CallResult := lc.internal.read

/-- The method `Write`: `lc.externalWriter.Write(b)`. -/
def LatencyConn.Write (lc : LatencyConn) : CallResult := lc.external.write

/-- One `Close()` call on a resource: the call is recorded, a pipe end stores
its close error, and the call answers `res s`.  (The pipe ends of Go answer
nil; the wrapped connection answers anything.  Every answer is allowed
here.) -/
def LatencyConn.closeOne (lc : LatencyConn) (res : Teardown → Option Error) (s : Teardown) :
    Option Error × LatencyConn :=
  let lc1 := { lc with closed := lc.closed ++ [s] }
  match s with
  | .externalWriter => (res s, { lc1 with external := lc.external.closeWrite none })
  | .internalWriter => (res s, { lc1 with internal := lc.internal.closeWrite none })
  | .internalReader => (res s, { lc1 with internal := lc.internal.closeRead none })
  | .externalReader => (res s, { lc1 with external := lc.external.closeRead none })
  | .wrappedConnection => (res s, lc1)

/-- The method `Close`: the five arguments of `anyError` are evaluated from
left to right, then `anyError` is called. -/
def LatencyConn.Close (lc : LatencyConn) (res : Teardown → Option Error) :
    Option Error × LatencyConn :=
  let (e1, lc1) := lc.closeOne res .externalWriter
  let (e2, lc2) := lc1.closeOne res .internalWriter
  let (e3, lc3) := lc2.closeOne res .internalReader
  let (e4, lc4) := lc3.closeOne res .externalReader
  let (e5, lc5) := lc4.closeOne res .wrappedConnection
  (anyError [e1, e2, e3, e4, e5], lc5)

/-! ## The pacing loops -/

/-- A running ticker. -/
structure Ticker where
  period : Int
  deriving DecidableEq, Repr

/-- The function `time.NewTicker`: it panics on a period that is not
positive. -/
def NewTicker (d : Int) : Except String Ticker :=
  if d ≤ 0 then .error "non-positive interval for NewTicker" else .ok ⟨d⟩

/-- The two goroutines of a decorator. -/
inductive Goroutine where
  | backgroundWriter
  | backgroundReader
  deriving DecidableEq, Repr

/-- Where a pacing goroutine stands.

* `waiting`: in `select`, waiting for the next tick;
* `blocked`: inside `io.Copy`, in a call of the source or of the sink that
  has not returned;
* `spinning`: at the label `stillHaveBytes`, about to call `io.Copy` again,
  when the observed number of copies is used up;
* `returned err`: the goroutine has returned after `CloseWithError(err)`;
* `panicked msg`: the goroutine has panicked. -/
inductive Status where
  | waiting
  | blocked
  | spinning
  | returned (err : Error)
  | panicked (msg : String)
  deriving DecidableEq, Repr

/-- What a pacing goroutine does that can be observed. -/
inductive Event where
  | tick
  | copy (byteCount : Int) (err : Option Error)
  deriving DecidableEq, Repr

/-- A pacing goroutine with its surroundings: the decorator, its source, its
sink, where it stands and what it has done so far. -/
structure Pacer where
  lc : LatencyConn
  src : Reader
  dst : Writer
  status : Status
  trace : List Event
  deriving DecidableEq, Repr

/-- The error branch of a pacing loop.  `backgroundWriter` calls
`lc.externalReader.CloseWithError(err)`, `backgroundReader` calls
`lc.internalReader.CloseWithError(err)`. -/
def closeWithError (g : Goroutine) (lc : LatencyConn) (err : Error) : LatencyConn :=
  match g with
  | .backgroundWriter => { lc with external := lc.external.closeRead (some err) }
  | .backgroundReader => { lc with internal := lc.internal.closeRead (some err) }

/-- The code from the label `stillHaveBytes` to `continue`:

```go
stillHaveBytes:
    byteCount, err := io.Copy(sink, io.LimitReader(source, readableBytes))
    if err != nil {
        pipeReader.CloseWithError(err)
        return
    }
    readableBytes -= byteCount
    if readableBytes != int64(0) {
        goto stillHaveBytes
    }
    continue
```
`fuel` bounds the number of `io.Copy` calls observed. -/
def stillHaveBytes (g : Goroutine) : Nat → Int → Pacer → Pacer
  | 0, _, t => { t with status := .spinning }
  | fuel + 1, readableBytes, t =>
    let c := Copy t.dst t.src readableBytes
    match c.status with
    | .blocked => { t with src := c.src, dst := c.dst, status := .blocked }
    | .returned (some err) =>
      { lc := closeWithError g t.lc err, src := c.src, dst := c.dst,
        status := .returned err, trace := t.trace ++ [.copy c.written (some err)] }
    | .returned none =>
      let t1 : Pacer :=
        { t with src := c.src, dst := c.dst, trace := t.trace ++ [.copy c.written none] }
      if readableBytes - c.written ≠ 0 then
        stillHaveBytes g fuel (readableBytes - c.written) t1
      else { t1 with status := .waiting }

/-- The `case <-ticker.C:` branch: a goroutine that waits in `select` takes
the tick and sets `readableBytes := lc.lineRate`; a goroutine that is
elsewhere (inside `io.Copy`, at the label, returned, panicked) does not take
it. -/
def onTick (g : Goroutine) (fuel : Nat) (t : Pacer) : Pacer :=
  match t.status with
  | .waiting => stillHaveBytes g fuel t.lc.lineRate { t with trace := t.trace ++ [.tick] }
  | _ => t

/-- The loop `for { select { case <-ticker.C: ... } }` over `ticks` ticks. -/
def pace (g : Goroutine) (fuel : Nat) : Nat → Pacer → Pacer
  | 0, t => t
  | ticks + 1, t => pace g fuel ticks (onTick g fuel t)

/-- A pacing goroutine from its start: `time.NewTicker(lc.quantum)`, then
the loop. -/
def background (g : Goroutine) (lc : LatencyConn) (src : Reader) (dst : Writer)
    (ticks fuel : Nat) : Pacer :=
  match NewTicker lc.quantum with
  | .error msg => { lc := lc, src := src, dst := dst, status := .panicked msg, trace := [] }
  | .ok _ => pace g fuel ticks { lc := lc, src := src, dst := dst, status := .waiting, trace := [] }

/-- The method `backgroundWriter`: the source is `lc.externalReader`, the
sink is `lc.wrappedConnection`. -/
def backgroundWriter (lc : LatencyConn) (externalReader : Reader) (wrappedConnection : Writer)
    (ticks fuel : Nat) : Pacer :=
  background .backgroundWriter lc externalReader wrappedConnection ticks fuel

/-- The method `backgroundReader`: the source is `lc.wrappedConnection`, the
sink is `lc.internalWriter`. -/
def backgroundReader (lc : LatencyConn) (wrappedConnection : Reader) (internalWriter : Writer)
    (ticks fuel : Nat) : Pacer :=
  background .backgroundReader lc wrappedConnection internalWriter ticks fuel

/-- A fresh `io.Pipe()`. -/
def Pipe.new : Pipe := { rerr := none, werr := none }

/-- The function `NewLatencyConn`: two fresh pipes, the struct, two `go`
statements, `return lc`.  The Go function has one result, the decorator, and
no error result; `.error` stands for a panic of the call itself, which the
body never raises.  Next to the decorator the result lists the goroutines the
call has started. -/
def NewLatencyConn (LineRate Quantum : Int) : Except String (LatencyConn × List Goroutine) :=
  let lc : LatencyConn :=
    { lineRate := LineRate, quantum := Quantum, internal := Pipe.new, external := Pipe.new,
      closed := [] }
  .ok (lc, [.backgroundWriter, .backgroundReader])


/-! ## Sample inputs -/

/-- A decorator with a rate budget of 2 bytes per tick. -/
def sampleConn : LatencyConn :=
  { lineRate := 2, quantum := 1, internal := Pipe.new, external := Pipe.new, closed := [] }

/-- A source that delivers six bytes, in short reads and with an empty read. -/
def sampleSource : Reader :=
  { stream := [10, 11, 12, 13, 14, 15],
    script := [⟨1, none⟩, ⟨4, none⟩, ⟨0, none⟩, ⟨5, none⟩, ⟨5, none⟩] }

/-- A sink that takes whatever it is given, eight times. -/
def sampleSink : Writer :=
  { received := [], script := List.replicate 8 ⟨100, none⟩ }


/-- Teardown answers: the inbound write end answers error 7, the wrapped
connection answers error 9, the other three answer nil. -/
def sampleResults : Teardown → Option Error
  | .internalWriter => some (.other 7)
  | .wrappedConnection => some (.other 9)
  | _ => none

/-- A source whose first `Read` answers `(0, err)` with error 104. -/
def failingSource : Reader :=
  { stream := [], script := [⟨0, some (.other 104)⟩] }

/-- A source at end-of-stream: each of its next `n` reads answers
`(0, io.EOF)`. -/
def eofSource (n : Nat) : Reader :=
  { stream := [], script := List.replicate n ⟨0, some .EOF⟩ }

/-- A decorator with a negative rate budget. -/
def negativeConn : LatencyConn :=
  { lineRate := -1, quantum := 1, internal := Pipe.new, external := Pipe.new, closed := [] }


/-- A source that delivers five bytes, in short reads and with empty reads,
and then answers no more. -/
def shortSource : Reader :=
  { stream := [10, 11, 12, 13, 14],
    script := [⟨1, none⟩, ⟨4, none⟩, ⟨0, none⟩, ⟨5, none⟩, ⟨5, none⟩, ⟨3, none⟩] }

/-! ## The hypothesis of delivery -/

/-- The source hands its stream over and the sink takes it: every `Read`
answers nil or `EOF`, at least as many reads as the stream has bytes offer a
byte, every `Write` answers nil and takes a slice as long as the copy buffer
or as the stream, and the sink answers at least as many writes as the stream
has bytes. -/
def Supplies (src : Reader) (dst : Writer) : Prop :=
  (∀ ev ∈ src.script, ev.err = none ∨ ev.err = some .EOF)
  ∧ (∀ w ∈ dst.script, w.err = none ∧ min bufSize src.stream.length ≤ w.accept)
  ∧ src.stream.length ≤ src.script.countP (fun ev => decide (0 < ev.avail))
  ∧ src.stream.length ≤ dst.script.length

/-! ## Facts about `io.Copy` -/

theorem ReadEvent.count_le_length (ev : ReadEvent) (stream : List Byte) (len : Nat) :
    ev.count stream len ≤ stream.length := by
  unfold ReadEvent.count; omega

theorem ReadEvent.count_le_limit (ev : ReadEvent) (stream : List Byte) {N : Int} (hN : 0 < N) :
    ((ev.count stream (sliceLen N) : Nat) : Int) ≤ N := by
  unfold ReadEvent.count sliceLen; omega

theorem ReadEvent.length_take_count (ev : ReadEvent) (stream : List Byte) (len : Nat) :
    (stream.take (ev.count stream len)).length = ev.count stream len := by
  rw [List.length_take]; exact Nat.min_eq_left (ev.count_le_length stream len)

theorem Writer.Write_some {w : Writer} {p : List Byte} {nw : Nat} {ew : Option Error} {w1 : Writer}
    (h : w.Write p = some (nw, ew, w1)) :
    nw ≤ p.length ∧ w1.received = w.received ++ p.take nw := by
  unfold Writer.Write at h
  split at h
  · exact absurd h (by simp)
  · simp only [Option.some.injEq, Prod.mk.injEq] at h
    obtain ⟨h1, -, h3⟩ := h
    subst h1 h3
    exact ⟨Nat.min_le_right _ _, rfl⟩

theorem Writer.Write_length {w : Writer} {p : List Byte} {nw : Nat} {ew : Option Error}
    {w1 : Writer} (h : w.Write p = some (nw, ew, w1)) :
    w1.received.length = w.received.length + nw := by
  obtain ⟨h1, h2⟩ := Writer.Write_some h
  rw [h2, List.length_append, List.length_take]; omega

/-- With a limit that is not positive `io.Copy` returns `(0, nil)` at once and
touches neither the source nor the sink. -/
theorem copyBuffer_nonpos (dst : Writer) (stream : List Byte) {N : Int} (written : Int)
    (script : List ReadEvent) (hN : N ≤ 0) :
    copyBuffer dst stream N written script = ⟨written, .returned none, ⟨stream, script⟩, dst⟩ := by
  cases script <;> simp [copyBuffer, hN]

/-- The count `io.Copy` returns is the number of bytes the sink received. -/
theorem copyBuffer_written (script : List ReadEvent) :
    ∀ (dst : Writer) (stream : List Byte) (N written : Int),
      ((copyBuffer dst stream N written script).dst.received.length : Int)
        = dst.received.length + ((copyBuffer dst stream N written script).written - written) := by
  induction script with
  | nil =>
    intro dst stream N written
    unfold copyBuffer
    split <;> simp
  | cons ev rest ih =>
    intro dst stream N written
    unfold copyBuffer
    split
    · simp
    · dsimp only
      split
      · split
        · simp
        · rename_i nw ew dst1 hw
          have hl := Writer.Write_length hw
          split
          · simp only; omega
          · split
            · simp only; omega
            · split
              · simp only; omega
              · simp only; omega
              · rw [ih]; omega
      · split
        · simp
        · simp
        · rw [ih]

/-- A copy limited to `N >= 0` bytes takes at most `N` bytes from the source. -/
theorem copyBuffer_consumed (script : List ReadEvent) :
    ∀ (dst : Writer) (stream : List Byte) (N written : Int), 0 ≤ N →
      (stream.length : Int) ≤ (copyBuffer dst stream N written script).src.stream.length + N := by
  induction script with
  | nil =>
    intro dst stream N written hN
    unfold copyBuffer
    split <;> simp <;> omega
  | cons ev rest ih =>
    intro dst stream N written hN
    unfold copyBuffer
    split
    · simp; omega
    · rename_i hpos
      have hpos : 0 < N := by omega
      have h1 := ev.count_le_limit stream hpos
      have h2 := ev.count_le_length stream (sliceLen N)
      have key : (stream.length : Int)
          ≤ (stream.drop (ev.count stream (sliceLen N))).length + N := by
        rw [List.length_drop]; omega
      have hrec : ∀ (d : Writer) (w : Int), (stream.length : Int)
          ≤ (copyBuffer d (stream.drop (ev.count stream (sliceLen N)))
              (N - (ev.count stream (sliceLen N) : Nat)) w rest).src.stream.length + N := by
        intro d w
        have := ih d (stream.drop (ev.count stream (sliceLen N)))
          (N - (ev.count stream (sliceLen N) : Nat)) w (by omega)
        rw [List.length_drop] at this
        omega
      dsimp only
      split
      · split
        · exact key
        · split
          · exact key
          · split
            · exact key
            · split
              · exact key
              · exact key
              · exact hrec _ _
      · split
        · exact key
        · exact key
        · exact hrec _ _


/-- The sink is only appended to. -/
theorem copyBuffer_grows (script : List ReadEvent) :
    ∀ (dst : Writer) (stream : List Byte) (N written : Int),
      ∃ moved : List Byte,
        (copyBuffer dst stream N written script).dst.received = dst.received ++ moved := by
  induction script with
  | nil =>
    intro dst stream N written
    refine ⟨[], ?_⟩
    unfold copyBuffer
    split <;> simp
  | cons ev rest ih =>
    intro dst stream N written
    unfold copyBuffer
    split
    · exact ⟨[], by simp⟩
    · dsimp only
      split
      · split
        · exact ⟨[], by simp⟩
        · rename_i nw ew dst1 hw
          obtain ⟨-, hrec⟩ := Writer.Write_some hw
          split
          · exact ⟨_, hrec⟩
          · split
            · exact ⟨_, hrec⟩
            · split
              · exact ⟨_, hrec⟩
              · exact ⟨_, hrec⟩
              · obtain ⟨moved, h⟩ := ih dst1 (stream.drop (ev.count stream (sliceLen N)))
                  (N - (ev.count stream (sliceLen N) : Nat)) (written + nw)
                exact ⟨_, by rw [h, hrec, List.append_assoc]⟩
      · split
        · exact ⟨[], by simp⟩
        · exact ⟨[], by simp⟩
        · exact ih _ _ _ _

/-- The bytes of the sink followed by the bytes still in the source are the
bytes there were, except for the bytes `lost` of a read whose write failed,
fell short or did not return; a copy that returns nil loses nothing. -/
theorem copyBuffer_conserve (script : List ReadEvent) :
    ∀ (dst : Writer) (stream : List Byte) (N written : Int),
      ∃ lost : List Byte,
        (copyBuffer dst stream N written script).dst.received ++ lost
            ++ (copyBuffer dst stream N written script).src.stream = dst.received ++ stream
        ∧ ((copyBuffer dst stream N written script).status = .returned none → lost = []) := by
  induction script with
  | nil =>
    intro dst stream N written
    refine ⟨[], ?_, fun _ => rfl⟩
    unfold copyBuffer
    split <;> simp
  | cons ev rest ih =>
    intro dst stream N written
    unfold copyBuffer
    split
    · exact ⟨[], by simp, fun _ => rfl⟩
    · dsimp only
      have hlen := ev.length_take_count stream (sliceLen N)
      split
      · split
        · refine ⟨stream.take (ev.count stream (sliceLen N)), ?_, fun h => ?_⟩
          · simp [List.append_assoc]
          · simp at h
        · rename_i nw ew dst1 hw
          obtain ⟨hle, hrec⟩ := Writer.Write_some hw
          have full : dst1.received ++ (stream.take (ev.count stream (sliceLen N))).drop nw
              ++ stream.drop (ev.count stream (sliceLen N)) = dst.received ++ stream := by
            rw [hrec, List.append_assoc, List.append_assoc, ← List.append_assoc (List.take nw _),
              List.take_append_drop, List.take_append_drop]
          have hdrop : ev.count stream (sliceLen N) = nw →
              (stream.take (ev.count stream (sliceLen N))).drop nw = [] := by
            intro h
            apply List.drop_eq_nil_of_le
            omega
          split
          · exact ⟨_, full, fun h => by simp at h⟩
          · split
            · exact ⟨_, full, fun h => by simp at h⟩
            · rename_i hnw
              have hnw : ev.count stream (sliceLen N) = nw := by
                by_contra hc; exact hnw hc
              split
              · exact ⟨_, full, fun _ => hdrop hnw⟩
              · exact ⟨_, full, fun _ => hdrop hnw⟩
              · obtain ⟨lost, h1, h2⟩ := ih dst1 (stream.drop (ev.count stream (sliceLen N)))
                  (N - (ev.count stream (sliceLen N) : Nat)) (written + nw)
                refine ⟨lost, ?_, h2⟩
                rw [h1, ← full, hdrop hnw, List.append_nil]
      · rename_i hzero
        have hzero : ev.count stream (sliceLen N) = 0 := by omega
        split
        · exact ⟨[], by simp [hzero], fun _ => rfl⟩
        · exact ⟨[], by simp [hzero], fun _ => rfl⟩
        · obtain ⟨lost, h1, h2⟩ := ih dst (stream.drop (ev.count stream (sliceLen N)))
            (N - (ev.count stream (sliceLen N) : Nat)) written
          refine ⟨lost, ?_, h2⟩
          rw [h1, hzero, List.drop_zero]

/-- The running count of `io.Copy` never decreases. -/
theorem copyBuffer_mono (script : List ReadEvent) :
    ∀ (dst : Writer) (stream : List Byte) (N written : Int),
      written ≤ (copyBuffer dst stream N written script).written := by
  intro dst stream N written
  have := copyBuffer_written script dst stream N written
  obtain ⟨moved, h⟩ := copyBuffer_grows script dst stream N written
  rw [h, List.length_append] at this
  push_cast at this
  omega

/-- A copy with a positive limit that returns has made the source answer at
least one `Read`; no copy puts entries back. -/
theorem copyBuffer_script (script : List ReadEvent) :
    ∀ (dst : Writer) (stream : List Byte) (N written : Int),
      (copyBuffer dst stream N written script).src.script.length ≤ script.length
      ∧ (0 < N → (copyBuffer dst stream N written script).status ≠ .blocked →
          (copyBuffer dst stream N written script).src.script.length < script.length) := by
  induction script with
  | nil =>
    intro dst stream N written
    unfold copyBuffer
    split
    · exact ⟨Nat.le_refl _, fun h => by omega⟩
    · exact ⟨Nat.le_refl _, fun _ h => absurd rfl h⟩
  | cons ev rest ih =>
    intro dst stream N written
    unfold copyBuffer
    split
    · exact ⟨Nat.le_refl _, fun h => by omega⟩
    · dsimp only
      have base : rest.length ≤ (ev :: rest).length ∧ rest.length < (ev :: rest).length := by
        simp
      have hrec : ∀ (d : Writer) (s : List Byte) (M w : Int),
          (copyBuffer d s M w rest).src.script.length ≤ (ev :: rest).length
          ∧ (copyBuffer d s M w rest).src.script.length < (ev :: rest).length := by
        intro d s M w
        have := (ih d s M w).1
        simp only [List.length_cons]
        omega
      split
      · split
        · exact ⟨base.1, fun _ _ => base.2⟩
        · split
          · exact ⟨base.1, fun _ _ => base.2⟩
          · split
            · exact ⟨base.1, fun _ _ => base.2⟩
            · split
              · exact ⟨base.1, fun _ _ => base.2⟩
              · exact ⟨base.1, fun _ _ => base.2⟩
              · exact ⟨(hrec _ _ _ _).1, fun _ _ => (hrec _ _ _ _).2⟩
      · split
        · exact ⟨base.1, fun _ _ => base.2⟩
        · exact ⟨base.1, fun _ _ => base.2⟩
        · exact ⟨(hrec _ _ _ _).1, fun _ _ => (hrec _ _ _ _).2⟩


/-! ## Facts about one tick -/

theorem Copy_written (dst : Writer) (src : Reader) (N : Int) :
    ((Copy dst src N).dst.received.length : Int) = dst.received.length + (Copy dst src N).written := by
  have := copyBuffer_written src.script dst src.stream N 0
  unfold Copy; omega

theorem Copy_consumed (dst : Writer) (src : Reader) {N : Int} (hN : 0 ≤ N) :
    (src.stream.length : Int) ≤ (Copy dst src N).src.stream.length + N :=
  copyBuffer_consumed src.script dst src.stream N 0 hN

theorem Copy_conserve (dst : Writer) (src : Reader) (N : Int) :
    ∃ lost : List Byte,
      (Copy dst src N).dst.received ++ lost ++ (Copy dst src N).src.stream
        = dst.received ++ src.stream
      ∧ ((Copy dst src N).status = .returned none → lost = []) :=
  copyBuffer_conserve src.script dst src.stream N 0

/-- The count `io.Copy` returns lies between `0` and the limit. -/
theorem Copy_written_le (dst : Writer) (src : Reader) {N : Int} (hN : 0 ≤ N) :
    0 ≤ (Copy dst src N).written ∧ (Copy dst src N).written ≤ N := by
  have h0 := copyBuffer_mono src.script dst src.stream N 0
  have h1 := Copy_written dst src N
  have h2 := Copy_consumed dst src hN
  obtain ⟨lost, h3, -⟩ := Copy_conserve dst src N
  have h4 := congrArg List.length h3
  simp only [List.length_append] at h4
  unfold Copy at *
  omega

/-- A copy that returns nil has taken from the source exactly the bytes it
counts. -/
theorem Copy_exact (dst : Writer) (src : Reader) (N : Int)
    (h : (Copy dst src N).status = .returned none) :
    (src.stream.length : Int) = (Copy dst src N).src.stream.length + (Copy dst src N).written := by
  have h1 := Copy_written dst src N
  obtain ⟨lost, h3, h5⟩ := Copy_conserve dst src N
  have h4 := congrArg List.length h3
  rw [h5 h] at h4
  simp only [List.length_append, List.length_nil] at h4
  omega

theorem closeWithError_lineRate (g : Goroutine) (lc : LatencyConn) (err : Error) :
    (closeWithError g lc err).lineRate = lc.lineRate := by
  cases g <;> rfl

/-- The rate budget is never modified. -/
theorem stillHaveBytes_lineRate (g : Goroutine) (fuel : Nat) :
    ∀ (rb : Int) (t : Pacer), (stillHaveBytes g fuel rb t).lc.lineRate = t.lc.lineRate := by
  induction fuel with
  | zero => intro rb t; rfl
  | succ fuel ih =>
    intro rb t
    unfold stillHaveBytes
    dsimp only
    split
    · rfl
    · exact closeWithError_lineRate g t.lc _
    · split
      · rw [ih]
      · rfl

/-- One pass from `stillHaveBytes` with `readableBytes >= 0` takes at most
`readableBytes` bytes from the source. -/
theorem stillHaveBytes_consumed (g : Goroutine) (fuel : Nat) :
    ∀ (rb : Int) (t : Pacer), 0 ≤ rb →
      (t.src.stream.length : Int) ≤ (stillHaveBytes g fuel rb t).src.stream.length + rb := by
  induction fuel with
  | zero => intro rb t h; simp only [stillHaveBytes]; omega
  | succ fuel ih =>
    intro rb t h
    have h1 := Copy_consumed t.dst t.src h
    have h2 := Copy_written_le t.dst t.src h
    unfold stillHaveBytes
    dsimp only
    split
    · exact h1
    · exact h1
    · rename_i hst
      have h3 := Copy_exact t.dst t.src rb hst
      split
      · have := ih (rb - (Copy t.dst t.src rb).written)
          { t with src := (Copy t.dst t.src rb).src, dst := (Copy t.dst t.src rb).dst,
                   trace := t.trace ++ [.copy (Copy t.dst t.src rb).written none] } (by omega)
        dsimp only at this
        omega
      · exact h1

/-- Nothing is reordered or duplicated inside a tick, and nothing is lost
while the copies return nil. -/
theorem stillHaveBytes_conserve (g : Goroutine) (fuel : Nat) :
    ∀ (rb : Int) (t : Pacer), ∃ lost : List Byte,
      (stillHaveBytes g fuel rb t).dst.received ++ lost ++ (stillHaveBytes g fuel rb t).src.stream
        = t.dst.received ++ t.src.stream
      ∧ ((stillHaveBytes g fuel rb t).status = .waiting
          ∨ (stillHaveBytes g fuel rb t).status = .spinning → lost = []) := by
  induction fuel with
  | zero => intro rb t; exact ⟨[], by simp [stillHaveBytes], fun _ => rfl⟩
  | succ fuel ih =>
    intro rb t
    obtain ⟨lost, h1, h2⟩ := Copy_conserve t.dst t.src rb
    unfold stillHaveBytes
    dsimp only
    split
    · exact ⟨lost, h1, fun h => by simp at h⟩
    · exact ⟨lost, h1, fun h => by simp at h⟩
    · rename_i hst
      have hl := h2 hst
      subst hl
      split
      · obtain ⟨lost', h3, h4⟩ := ih (rb - (Copy t.dst t.src rb).written)
          { t with src := (Copy t.dst t.src rb).src, dst := (Copy t.dst t.src rb).dst,
                   trace := t.trace ++ [.copy (Copy t.dst t.src rb).written none] }
        refine ⟨lost', ?_, h4⟩
        rw [h3]
        simpa using h1
      · exact ⟨[], h1, fun _ => rfl⟩

/-- A pass that reaches `continue` has moved exactly `readableBytes` bytes. -/
theorem stillHaveBytes_exact (g : Goroutine) (fuel : Nat) :
    ∀ (rb : Int) (t : Pacer), (stillHaveBytes g fuel rb t).status = .waiting →
      ((stillHaveBytes g fuel rb t).dst.received.length : Int) = t.dst.received.length + rb := by
  induction fuel with
  | zero => intro rb t h; simp [stillHaveBytes] at h
  | succ fuel ih =>
    intro rb t
    have h1 := Copy_written t.dst t.src rb
    unfold stillHaveBytes
    dsimp only
    split
    · intro h; simp at h
    · intro h; simp at h
    · split
      · intro h
        have := ih _ _ h
        dsimp only at this
        omega
      · rename_i hz
        intro _
        dsimp only
        have hz : rb - (Copy t.dst t.src rb).written = 0 := by
          by_contra hc; exact hz hc
        omega

/-- With `readableBytes >= 0`, a pass that is given more `io.Copy` calls than
the source has answers left never ends at the label: it reaches `continue`,
returns, or is inside a call that does not return. -/
theorem stillHaveBytes_fuel (g : Goroutine) (fuel : Nat) :
    ∀ (rb : Int) (t : Pacer), 0 ≤ rb → t.src.script.length < fuel →
      (stillHaveBytes g fuel rb t).status ≠ .spinning := by
  induction fuel with
  | zero => intro rb t _ h; omega
  | succ fuel ih =>
    intro rb t hrb hf
    have h2 := Copy_written_le t.dst t.src hrb
    have h3 := copyBuffer_script t.src.script t.dst t.src.stream rb 0
    unfold stillHaveBytes
    dsimp only
    split
    · simp
    · simp
    · rename_i hst
      split
      · rename_i hne
        apply ih
        · omega
        · dsimp only
          have hpos : 0 < rb := by
            by_contra hc
            apply hne
            omega
          have := h3.2 hpos (by
            show (Copy t.dst t.src rb).status ≠ .blocked
            rw [hst]; simp)
          show (Copy t.dst t.src rb).src.script.length < fuel
          unfold Copy
          omega
      · simp


/-- No pass puts answers back into the script of the source. -/
theorem stillHaveBytes_script (g : Goroutine) (fuel : Nat) :
    ∀ (rb : Int) (t : Pacer),
      (stillHaveBytes g fuel rb t).src.script.length ≤ t.src.script.length := by
  induction fuel with
  | zero => intro rb t; exact Nat.le_refl _
  | succ fuel ih =>
    intro rb t
    have h := (copyBuffer_script t.src.script t.dst t.src.stream rb 0).1
    unfold stillHaveBytes
    dsimp only
    split
    · exact h
    · exact h
    · split
      · exact Nat.le_trans (ih _ _) h
      · exact h

/-! ## Facts about the loop over ticks -/

theorem onTick_lineRate (g : Goroutine) (fuel : Nat) (t : Pacer) :
    (onTick g fuel t).lc.lineRate = t.lc.lineRate := by
  unfold onTick
  split
  · rw [stillHaveBytes_lineRate]
  · rfl

/-- A goroutine that waits for a tick after `onTick` waited for one before. -/
theorem onTick_waiting (g : Goroutine) (fuel : Nat) (t : Pacer)
    (h : (onTick g fuel t).status = .waiting) : t.status = .waiting := by
  unfold onTick at h
  split at h
  · assumption
  · rename_i hne
    exact absurd h hne

theorem onTick_consumed (g : Goroutine) (fuel : Nat) (t : Pacer) (h : 0 ≤ t.lc.lineRate) :
    (t.src.stream.length : Int) ≤ (onTick g fuel t).src.stream.length + t.lc.lineRate := by
  unfold onTick
  split
  · exact stillHaveBytes_consumed g fuel t.lc.lineRate _ h
  · omega

theorem onTick_conserve (g : Goroutine) (fuel : Nat) (t : Pacer) :
    ∃ lost : List Byte,
      (onTick g fuel t).dst.received ++ lost ++ (onTick g fuel t).src.stream
        = t.dst.received ++ t.src.stream
      ∧ ((onTick g fuel t).status = .waiting ∨ (onTick g fuel t).status = .spinning
          → t.status = .waiting → lost = []) := by
  unfold onTick
  split
  · obtain ⟨lost, h1, h2⟩ := stillHaveBytes_conserve g fuel t.lc.lineRate
      { t with trace := t.trace ++ [.tick] }
    exact ⟨lost, h1, fun h _ => h2 h⟩
  · exact ⟨[], by simp, fun _ _ => rfl⟩

/-- During one tick at most `lineRate` bytes reach the sink. -/
theorem onTick_moved (g : Goroutine) (fuel : Nat) (t : Pacer) (h : 0 ≤ t.lc.lineRate) :
    ((onTick g fuel t).dst.received.length : Int) ≤ t.dst.received.length + t.lc.lineRate := by
  have h1 := onTick_consumed g fuel t h
  obtain ⟨lost, h2, -⟩ := onTick_conserve g fuel t
  have h3 := congrArg List.length h2
  simp only [List.length_append] at h3
  omega

/-- A tick that is taken and completed moves exactly `lineRate` bytes. -/
theorem onTick_exact (g : Goroutine) (fuel : Nat) (t : Pacer)
    (h : (onTick g fuel t).status = .waiting) :
    ((onTick g fuel t).dst.received.length : Int) = t.dst.received.length + t.lc.lineRate := by
  have hw := onTick_waiting g fuel t h
  unfold onTick at h ⊢
  rw [hw] at h ⊢
  exact stillHaveBytes_exact g fuel t.lc.lineRate _ h

theorem onTick_script (g : Goroutine) (fuel : Nat) (t : Pacer) :
    (onTick g fuel t).src.script.length ≤ t.src.script.length := by
  unfold onTick
  split
  · exact stillHaveBytes_script g fuel _ _
  · exact Nat.le_refl _

theorem onTick_fuel (g : Goroutine) (fuel : Nat) (t : Pacer) (h : 0 ≤ t.lc.lineRate)
    (hf : t.src.script.length < fuel) (hs : t.status ≠ .spinning) :
    (onTick g fuel t).status ≠ .spinning := by
  unfold onTick
  split
  · exact stillHaveBytes_fuel g fuel _ _ h hf
  · exact hs

theorem pace_succ (g : Goroutine) (fuel : Nat) :
    ∀ (ticks : Nat) (t : Pacer),
      pace g fuel (ticks + 1) t = onTick g fuel (pace g fuel ticks t) := by
  intro ticks
  induction ticks with
  | zero => intro t; rfl
  | succ n ih =>
    intro t
    show pace g fuel (n + 1) (onTick g fuel t) = _
    rw [ih]
    rfl

/-- The goroutine from its start, one tick later. -/
theorem background_succ (g : Goroutine) (lc : LatencyConn) (src : Reader) (dst : Writer)
    (ticks fuel : Nat) :
    background g lc src dst (ticks + 1) fuel
      = onTick g fuel (background g lc src dst ticks fuel) := by
  unfold background
  split
  · rfl
  · exact pace_succ g fuel ticks _

theorem background_zero (g : Goroutine) (lc : LatencyConn) (src : Reader) (dst : Writer)
    (fuel : Nat) :
    (background g lc src dst 0 fuel).lc = lc ∧ (background g lc src dst 0 fuel).src = src
      ∧ (background g lc src dst 0 fuel).dst = dst
      ∧ (background g lc src dst 0 fuel).status ≠ .spinning := by
  unfold background
  split
  · exact ⟨rfl, rfl, rfl, by simp⟩
  · exact ⟨rfl, rfl, rfl, by simp [pace]⟩

theorem background_lineRate (g : Goroutine) (lc : LatencyConn) (src : Reader) (dst : Writer)
    (ticks fuel : Nat) :
    (background g lc src dst ticks fuel).lc.lineRate = lc.lineRate := by
  induction ticks with
  | zero => rw [(background_zero g lc src dst fuel).1]
  | succ n ih => rw [background_succ, onTick_lineRate, ih]

/-- After `ticks` ticks at most `ticks * lineRate` bytes have reached the
sink. -/
theorem background_moved (g : Goroutine) (lc : LatencyConn) (src : Reader) (dst : Writer)
    (ticks fuel : Nat) (h : 0 ≤ lc.lineRate) :
    ((background g lc src dst ticks fuel).dst.received.length : Int)
      ≤ dst.received.length + ticks * lc.lineRate := by
  induction ticks with
  | zero => rw [(background_zero g lc src dst fuel).2.2.1]; simp
  | succ n ih =>
    rw [background_succ]
    have h1 := onTick_moved g fuel (background g lc src dst n fuel)
      (by rw [background_lineRate]; exact h)
    rw [background_lineRate] at h1
    push_cast
    linarith

/-- After `ticks` completed ticks exactly `ticks * lineRate` bytes have
reached the sink. -/
theorem background_exact (g : Goroutine) (lc : LatencyConn) (src : Reader) (dst : Writer)
    (ticks fuel : Nat) :
    (background g lc src dst ticks fuel).status = .waiting →
    ((background g lc src dst ticks fuel).dst.received.length : Int)
      = dst.received.length + ticks * lc.lineRate := by
  induction ticks with
  | zero => intro _; rw [(background_zero g lc src dst fuel).2.2.1]; simp
  | succ n ih =>
    rw [background_succ]
    intro h
    have h1 := onTick_exact g fuel _ h
    have h2 := ih (onTick_waiting g fuel _ h)
    rw [background_lineRate] at h1
    push_cast
    linarith

/-- The sink holds a prefix of the stream; while the goroutine waits for a
tick nothing is in flight. -/
theorem background_conserve (g : Goroutine) (lc : LatencyConn) (src : Reader) (dst : Writer)
    (ticks fuel : Nat) :
    ∃ lost : List Byte,
      (background g lc src dst ticks fuel).dst.received ++ lost
          ++ (background g lc src dst ticks fuel).src.stream = dst.received ++ src.stream
      ∧ ((background g lc src dst ticks fuel).status = .waiting
          ∨ (background g lc src dst ticks fuel).status = .spinning → lost = []) := by
  induction ticks with
  | zero =>
    obtain ⟨-, h2, h3, -⟩ := background_zero g lc src dst fuel
    exact ⟨[], by rw [h2, h3]; simp, fun _ => rfl⟩
  | succ n ih =>
    obtain ⟨lost, h1, h2⟩ := ih
    obtain ⟨lost', h3, h4⟩ := onTick_conserve g fuel (background g lc src dst n fuel)
    rw [background_succ]
    by_cases hw : (background g lc src dst n fuel).status = .waiting
    · have hl := h2 (Or.inl hw)
      subst hl
      refine ⟨lost', ?_, fun h => h4 h hw⟩
      rw [h3]
      simpa using h1
    · refine ⟨lost, ?_, ?_⟩
      · have : onTick g fuel (background g lc src dst n fuel) = background g lc src dst n fuel := by
          unfold onTick
          split
          · rename_i hc; exact absurd hc hw
          · rfl
        rw [this]
        exact h1
      · have : onTick g fuel (background g lc src dst n fuel) = background g lc src dst n fuel := by
          unfold onTick
          split
          · rename_i hc; exact absurd hc hw
          · rfl
        rw [this]
        exact h2

theorem background_script (g : Goroutine) (lc : LatencyConn) (src : Reader) (dst : Writer)
    (ticks fuel : Nat) :
    (background g lc src dst ticks fuel).src.script.length ≤ src.script.length := by
  induction ticks with
  | zero => rw [(background_zero g lc src dst fuel).2.1]
  | succ n ih =>
    rw [background_succ]
    exact Nat.le_trans (onTick_script g fuel _) ih

/-- With a rate budget that is not negative and more `io.Copy` calls per tick
than the source has answers, the observation never ends at the label
`stillHaveBytes`. -/
theorem background_fuel (g : Goroutine) (lc : LatencyConn) (src : Reader) (dst : Writer)
    (ticks fuel : Nat) (h : 0 ≤ lc.lineRate) (hf : src.script.length < fuel) :
    (background g lc src dst ticks fuel).status ≠ .spinning := by
  induction ticks with
  | zero => exact (background_zero g lc src dst fuel).2.2.2
  | succ n ih =>
    rw [background_succ]
    apply onTick_fuel g fuel _ _ _ ih
    · rw [background_lineRate]; exact h
    · exact Nat.lt_of_le_of_lt (background_script g lc src dst n fuel) hf


/-! ## Delivery when the source hands the stream over and the sink takes it -/

theorem Writer.Write_cons (received : List Byte) (w : WriteEvent) (rest : List WriteEvent)
    (p : List Byte) (hw : w.err = none) (ha : p.length ≤ w.accept) :
    Writer.Write ⟨received, w :: rest⟩ p = some (p.length, none, ⟨received ++ p, rest⟩) := by
  simp [Writer.Write, hw, Nat.min_eq_right ha]

theorem sliceLen_pos {N : Int} (hN : 0 < N) : 0 < sliceLen N ∧ sliceLen N ≤ bufSize := by
  unfold sliceLen bufSize; omega

/-- One `Read` of a copy with a positive limit, when the source hands the
stream over and the sink takes it: the entry answers nil or `EOF`; a read of
no byte leaves the sink alone; a read of `nr > 0` bytes is followed by a write
that takes all of them; and the rest of the source is handed over and taken
the same way. -/
theorem Supplies.step {stream : List Byte} {ev : ReadEvent} {rest : List ReadEvent}
    {dst : Writer} (h : Supplies ⟨stream, ev :: rest⟩ dst) {N : Int} (hN : 0 < N) :
    (ev.err = none ∨ ev.err = some .EOF)
    ∧ (ev.count stream (sliceLen N) = 0 →
        Supplies ⟨stream.drop (ev.count stream (sliceLen N)), rest⟩ dst)
    ∧ (0 < ev.count stream (sliceLen N) →
        ∃ dst1 : Writer,
          dst.Write (stream.take (ev.count stream (sliceLen N)))
            = some (ev.count stream (sliceLen N), none, dst1)
          ∧ dst1.received = dst.received ++ stream.take (ev.count stream (sliceLen N))
          ∧ Supplies ⟨stream.drop (ev.count stream (sliceLen N)), rest⟩ dst1) := by
  obtain ⟨h1, h2, h3, h4⟩ := h
  dsimp only at h1 h2 h3 h4
  simp only [List.countP_cons] at h3
  have hs := sliceLen_pos hN
  have hlen := ev.length_take_count stream (sliceLen N)
  have hcount : ev.count stream (sliceLen N) = min (min ev.avail (sliceLen N)) stream.length := rfl
  have hdrop : (stream.drop (ev.count stream (sliceLen N))).length
      = stream.length - ev.count stream (sliceLen N) := List.length_drop _ _
  refine ⟨h1 ev (List.mem_cons_self _ _), ?_, ?_⟩
  · intro hz
    refine ⟨fun e he => h1 e (List.mem_cons_of_mem _ he), ?_, ?_, ?_⟩
    · intro w hw
      refine ⟨(h2 w hw).1, ?_⟩
      have := (h2 w hw).2
      dsimp only
      omega
    · dsimp only
      by_cases ha : 0 < ev.avail
      · have : stream.length = 0 := by omega
        omega
      · simp only [ha, decide_False] at h3
        simp at h3
        omega
    · dsimp only
      omega
  · intro hpos
    have hav : 0 < ev.avail := by omega
    simp only [hav, decide_True, if_true] at h3
    cases hds : dst.script with
    | nil => rw [hds] at h4; simp only [List.length_nil] at h4; omega
    | cons w wrest =>
      rw [hds] at h2 h4
      have hw := h2 w (List.mem_cons_self _ _)
      have hacc : (stream.take (ev.count stream (sliceLen N))).length ≤ w.accept := by
        rw [hlen]
        have := hw.2
        omega
      refine ⟨⟨dst.received ++ stream.take (ev.count stream (sliceLen N)), wrest⟩, ?_, rfl, ?_⟩
      · have := Writer.Write_cons dst.received w wrest _ hw.1 hacc
        rw [hlen] at this
        rw [← this]
        cases dst
        simp only at hds
        subst hds
        rfl
      · refine ⟨fun e he => h1 e (List.mem_cons_of_mem _ he), ?_, ?_, ?_⟩
        · intro w2 hw2
          refine ⟨(h2 w2 (List.mem_cons_of_mem _ hw2)).1, ?_⟩
          have := (h2 w2 (List.mem_cons_of_mem _ hw2)).2
          dsimp only
          omega
        · dsimp only
          omega
        · dsimp only
          simp only [List.length_cons] at h4
          omega

/-- A copy from a source that hands the stream over into a sink that takes
it reports no error and loses nothing; if it does not return, the source has
nothing left. -/
theorem copyBuffer_supplied (script : List ReadEvent) :
    ∀ (dst : Writer) (stream : List Byte) (N written : Int), Supplies ⟨stream, script⟩ dst →
      ((copyBuffer dst stream N written script).status = .returned none
        ∨ ((copyBuffer dst stream N written script).status = .blocked
            ∧ (copyBuffer dst stream N written script).src.stream = []))
      ∧ (copyBuffer dst stream N written script).dst.received
          ++ (copyBuffer dst stream N written script).src.stream = dst.received ++ stream
      ∧ Supplies (copyBuffer dst stream N written script).src
          (copyBuffer dst stream N written script).dst := by
  induction script with
  | nil =>
    intro dst stream N written h
    have hempty : stream = [] := by
      have := h.2.2.1
      simp at this
      exact this
    unfold copyBuffer
    split
    · exact ⟨Or.inl rfl, rfl, h⟩
    · exact ⟨Or.inr ⟨rfl, hempty⟩, rfl, h⟩
  | cons ev rest ih =>
    intro dst stream N written h
    unfold copyBuffer
    split
    · exact ⟨Or.inl rfl, rfl, h⟩
    · rename_i hN
      have hN : 0 < N := by omega
      obtain ⟨herr, hzero, hpos⟩ := h.step hN
      dsimp only
      split
      · rename_i hnr
        obtain ⟨dst1, hW, hrecv, hsup⟩ := hpos hnr
        have hcons : dst1.received ++ stream.drop (ev.count stream (sliceLen N))
            = dst.received ++ stream := by
          rw [hrecv, List.append_assoc, List.take_append_drop]
        rw [hW]
        simp only [ne_eq, not_true_eq_false, if_false]
        rcases herr with he | he
        · rw [he]
          obtain ⟨a, b, c⟩ := ih dst1 (stream.drop (ev.count stream (sliceLen N)))
            (N - (ev.count stream (sliceLen N) : Nat)) (written + (ev.count stream (sliceLen N) : Nat))
            hsup
          exact ⟨a, by rw [b, hcons], c⟩
        · rw [he]
          exact ⟨Or.inl rfl, hcons, hsup⟩
      · rename_i hnr
        have hnr : ev.count stream (sliceLen N) = 0 := by omega
        have hsup := hzero hnr
        have hcons : dst.received ++ stream.drop (ev.count stream (sliceLen N))
            = dst.received ++ stream := by
          rw [hnr, List.drop_zero]
        rcases herr with he | he
        · rw [he]
          obtain ⟨a, b, c⟩ := ih dst (stream.drop (ev.count stream (sliceLen N)))
            (N - (ev.count stream (sliceLen N) : Nat)) written hsup
          exact ⟨a, by rw [b, hcons], c⟩
        · rw [he]
          exact ⟨Or.inl rfl, hcons, hsup⟩

/-- One pass from `stillHaveBytes`, when the source hands the stream over and
the sink takes it: the pass does not return with an error, it loses nothing,
and if it ends inside a call the source has nothing left. -/
theorem stillHaveBytes_supplied (g : Goroutine) (fuel : Nat) :
    ∀ (rb : Int) (t : Pacer), Supplies t.src t.dst →
      ((stillHaveBytes g fuel rb t).status = .waiting
        ∨ (stillHaveBytes g fuel rb t).status = .spinning
        ∨ ((stillHaveBytes g fuel rb t).status = .blocked
            ∧ (stillHaveBytes g fuel rb t).src.stream = []))
      ∧ (stillHaveBytes g fuel rb t).dst.received ++ (stillHaveBytes g fuel rb t).src.stream
          = t.dst.received ++ t.src.stream
      ∧ Supplies (stillHaveBytes g fuel rb t).src (stillHaveBytes g fuel rb t).dst := by
  induction fuel with
  | zero => intro rb t h; exact ⟨Or.inr (Or.inl rfl), rfl, h⟩
  | succ fuel ih =>
    intro rb t h
    obtain ⟨hst, hcons, hsup⟩ : ((Copy t.dst t.src rb).status = .returned none
          ∨ ((Copy t.dst t.src rb).status = .blocked ∧ (Copy t.dst t.src rb).src.stream = []))
        ∧ (Copy t.dst t.src rb).dst.received ++ (Copy t.dst t.src rb).src.stream
            = t.dst.received ++ t.src.stream
        ∧ Supplies (Copy t.dst t.src rb).src (Copy t.dst t.src rb).dst :=
      copyBuffer_supplied t.src.script t.dst t.src.stream rb 0 h
    unfold stillHaveBytes
    dsimp only
    split
    · rename_i hb
      rcases hst with hr | ⟨-, he⟩
      · rw [hb] at hr; exact absurd hr (by simp)
      · exact ⟨Or.inr (Or.inr ⟨rfl, he⟩), hcons, hsup⟩
    · rename_i err hb
      rcases hst with hr | ⟨hr, -⟩
      · rw [hb] at hr; exact absurd hr (by simp)
      · rw [hb] at hr; exact absurd hr (by simp)
    · split
      · obtain ⟨a, b, c⟩ := ih (rb - (Copy t.dst t.src rb).written)
          { t with src := (Copy t.dst t.src rb).src, dst := (Copy t.dst t.src rb).dst,
                   trace := t.trace ++ [.copy (Copy t.dst t.src rb).written none] } hsup
        exact ⟨a, by rw [b]; exact hcons, c⟩
      · exact ⟨Or.inl rfl, hcons, hsup⟩

theorem onTick_supplied (g : Goroutine) (fuel : Nat) (t : Pacer) (h : Supplies t.src t.dst)
    (hs : t.status = .waiting ∨ t.status = .spinning
      ∨ (t.status = .blocked ∧ t.src.stream = [])) :
    ((onTick g fuel t).status = .waiting ∨ (onTick g fuel t).status = .spinning
        ∨ ((onTick g fuel t).status = .blocked ∧ (onTick g fuel t).src.stream = []))
      ∧ (onTick g fuel t).dst.received ++ (onTick g fuel t).src.stream
          = t.dst.received ++ t.src.stream
      ∧ Supplies (onTick g fuel t).src (onTick g fuel t).dst := by
  unfold onTick
  split
  · exact stillHaveBytes_supplied g fuel t.lc.lineRate { t with trace := t.trace ++ [.tick] } h
  · exact ⟨hs, rfl, h⟩

theorem background_zero_status (g : Goroutine) (lc : LatencyConn) (src : Reader) (dst : Writer)
    (fuel : Nat) (hq : 0 < lc.quantum) :
    (background g lc src dst 0 fuel).status = .waiting := by
  have hq2 : ¬ lc.quantum ≤ 0 := by omega
  simp [background, NewTicker, hq2, pace]

/-- With a positive quantum, a source that hands the stream over and a sink
that takes it, the goroutine never returns with an error and never loses a
byte; whenever it is inside a call, the source has nothing left. -/
theorem background_supplied (g : Goroutine) (lc : LatencyConn) (src : Reader) (dst : Writer)
    (ticks fuel : Nat) (hq : 0 < lc.quantum) (h : Supplies src dst) :
    ((background g lc src dst ticks fuel).status = .waiting
        ∨ (background g lc src dst ticks fuel).status = .spinning
        ∨ ((background g lc src dst ticks fuel).status = .blocked
            ∧ (background g lc src dst ticks fuel).src.stream = []))
      ∧ (background g lc src dst ticks fuel).dst.received
          ++ (background g lc src dst ticks fuel).src.stream = dst.received ++ src.stream
      ∧ Supplies (background g lc src dst ticks fuel).src
          (background g lc src dst ticks fuel).dst := by
  induction ticks with
  | zero =>
    obtain ⟨-, h2, h3, -⟩ := background_zero g lc src dst fuel
    refine ⟨Or.inl (background_zero_status g lc src dst fuel hq), ?_, ?_⟩
    · rw [h2, h3]
    · rw [h2, h3]; exact h
  | succ n ih =>
    obtain ⟨a, b, c⟩ := ih
    obtain ⟨a2, b2, c2⟩ := onTick_supplied g fuel _ c a
    rw [background_succ]
    exact ⟨a2, by rw [b2, b], c2⟩

/-- With a positive quantum and a positive rate budget, a source that hands
the stream over, a sink that takes it and more observed copies per tick than
the source has answers: once `N` ticks have been delivered with
`N * lineRate` at least the length of the stream, the sink holds the whole
stream. -/
theorem background_delivers (g : Goroutine) (lc : LatencyConn) (src : Reader) (dst : Writer)
    (N fuel : Nat) (hq : 0 < lc.quantum) (hR : 0 < lc.lineRate)
    (hsize : (src.stream.length : Int) ≤ N * lc.lineRate) (h : Supplies src dst)
    (hf : src.script.length < fuel) :
    (background g lc src dst N fuel).dst.received = dst.received ++ src.stream := by
  obtain ⟨hs, hcons, -⟩ := background_supplied g lc src dst N fuel hq h
  have hempty : (background g lc src dst N fuel).src.stream = [] := by
    rcases hs with hw | hsp | ⟨-, he⟩
    · have h3 := background_exact g lc src dst N fuel hw
      have h4 := congrArg List.length hcons
      simp only [List.length_append] at h4
      rw [← List.length_eq_zero]
      omega
    · exact absurd hsp (background_fuel g lc src dst N fuel (le_of_lt hR) hf)
    · exact he
  rw [← hcons, hempty, List.append_nil]

/-! ## The claims about pacing -/

/-- C1: in both pacing loops, with a rate budget `lineRate >= 0` and whatever
the source and the sink do, the bytes that reach the sink between the receipt
of a tick and the end of the observation of that tick (the loop waits for the
next tick, has returned, is inside a call, or is about to copy again) are at
most `lineRate`; so are the bytes taken from the source. -/
theorem tick_quota (lc : LatencyConn) (src : Reader) (dst : Writer) (n fuel : Nat)
    (h : 0 ≤ lc.lineRate) :
    (((backgroundWriter lc src dst (n + 1) fuel).dst.received.length : Int)
        ≤ (backgroundWriter lc src dst n fuel).dst.received.length + lc.lineRate
      ∧ ((backgroundWriter lc src dst n fuel).src.stream.length : Int)
        ≤ (backgroundWriter lc src dst (n + 1) fuel).src.stream.length + lc.lineRate)
    ∧ (((backgroundReader lc src dst (n + 1) fuel).dst.received.length : Int)
        ≤ (backgroundReader lc src dst n fuel).dst.received.length + lc.lineRate
      ∧ ((backgroundReader lc src dst n fuel).src.stream.length : Int)
        ≤ (backgroundReader lc src dst (n + 1) fuel).src.stream.length + lc.lineRate) := by
  have key : ∀ g : Goroutine,
      ((background g lc src dst (n + 1) fuel).dst.received.length : Int)
        ≤ (background g lc src dst n fuel).dst.received.length + lc.lineRate
      ∧ ((background g lc src dst n fuel).src.stream.length : Int)
        ≤ (background g lc src dst (n + 1) fuel).src.stream.length + lc.lineRate := by
    intro g
    have hR : 0 ≤ (background g lc src dst n fuel).lc.lineRate := by
      rw [background_lineRate]; exact h
    have h1 := onTick_moved g fuel _ hR
    have h2 := onTick_consumed g fuel _ hR
    rw [background_lineRate] at h1 h2
    rw [background_succ]
    exact ⟨h1, h2⟩
  exact ⟨key .backgroundWriter, key .backgroundReader⟩

/-- The second tick of the sample run moves at most 2 bytes. -/
theorem tick_quota_witness :
    (0 : Int) ≤ sampleConn.lineRate
    ∧ ((backgroundWriter sampleConn sampleSource sampleSink 2 9).dst.received.length : Int)
        ≤ (backgroundWriter sampleConn sampleSource sampleSink 1 9).dst.received.length + 2 :=
  ⟨by decide, (tick_quota sampleConn sampleSource sampleSink 1 9 (by decide)).1.1⟩

/-- C2: in both pacing loops, for every stream and every way the source
splits it into reads, the bytes in the sink after any number of ticks are a
prefix of the stream, and while the loop is between two copies the sink
followed by the rest of the source is the stream itself.  If the stream holds
at most `N * lineRate` bytes with `lineRate > 0` and a positive quantum, the
source hands the stream over (every read answers nil or `EOF`, and at least
as many reads as the stream has bytes offer a byte) and the sink takes it
(every write answers nil and takes the whole slice, and there are at least as
many writes as bytes), then once `N` ticks have been delivered the sink holds
the whole stream, whether the loop then waits for a tick or is inside a read
of the drained source; the same holds after `N` completed ticks whatever the
scripts are.  With a budget of `io.Copy` calls per tick above the number of
answers of the source, the observation does not end between two copies of one
tick. -/
theorem stream_fifo (lc : LatencyConn) (src : Reader) (dst : Writer) (N fuel : Nat) :
    ∀ t : Pacer, t = backgroundWriter lc src dst N fuel ∨ t = backgroundReader lc src dst N fuel →
      t.dst.received <+: dst.received ++ src.stream
      ∧ (t.status = .waiting ∨ t.status = .spinning →
          t.dst.received ++ t.src.stream = dst.received ++ src.stream)
      ∧ (0 < lc.quantum → 0 < lc.lineRate → (src.stream.length : Int) ≤ N * lc.lineRate →
          (∀ ev ∈ src.script, ev.err = none ∨ ev.err = some .EOF) →
          (∀ w ∈ dst.script, w.err = none ∧ min bufSize src.stream.length ≤ w.accept) →
          src.stream.length ≤ src.script.countP (fun ev => decide (0 < ev.avail)) →
          src.stream.length ≤ dst.script.length →
          src.script.length < fuel →
          t.dst.received = dst.received ++ src.stream)
      ∧ (t.status = .waiting → 0 < lc.lineRate → (src.stream.length : Int) ≤ N * lc.lineRate →
          t.dst.received = dst.received ++ src.stream)
      ∧ (0 ≤ lc.lineRate → src.script.length < fuel → t.status ≠ .spinning) := by
  have key : ∀ g : Goroutine,
      (background g lc src dst N fuel).dst.received <+: dst.received ++ src.stream
      ∧ ((background g lc src dst N fuel).status = .waiting
          ∨ (background g lc src dst N fuel).status = .spinning →
          (background g lc src dst N fuel).dst.received
            ++ (background g lc src dst N fuel).src.stream = dst.received ++ src.stream)
      ∧ (0 < lc.quantum → 0 < lc.lineRate → (src.stream.length : Int) ≤ N * lc.lineRate →
          (∀ ev ∈ src.script, ev.err = none ∨ ev.err = some .EOF) →
          (∀ w ∈ dst.script, w.err = none ∧ min bufSize src.stream.length ≤ w.accept) →
          src.stream.length ≤ src.script.countP (fun ev => decide (0 < ev.avail)) →
          src.stream.length ≤ dst.script.length →
          src.script.length < fuel →
          (background g lc src dst N fuel).dst.received = dst.received ++ src.stream)
      ∧ ((background g lc src dst N fuel).status = .waiting → 0 < lc.lineRate →
          (src.stream.length : Int) ≤ N * lc.lineRate →
          (background g lc src dst N fuel).dst.received = dst.received ++ src.stream)
      ∧ (0 ≤ lc.lineRate → src.script.length < fuel →
          (background g lc src dst N fuel).status ≠ .spinning) := by
    intro g
    obtain ⟨lost, h1, h2⟩ := background_conserve g lc src dst N fuel
    refine ⟨⟨lost ++ (background g lc src dst N fuel).src.stream, ?_⟩, ?_, ?_, ?_, ?_⟩
    · rw [← h1, List.append_assoc]
    · intro hs
      rw [← h1, h2 hs, List.append_nil]
    · intro hq hR hsize hr hw hn hm hf
      exact background_delivers g lc src dst N fuel hq hR hsize ⟨hr, hw, hn, hm⟩ hf
    · intro hw _ hsize
      have h3 := background_exact g lc src dst N fuel hw
      have hl := h2 (Or.inl hw)
      subst hl
      have h4 := congrArg List.length h1
      simp only [List.length_append, List.length_nil] at h4
      have h5 : (background g lc src dst N fuel).src.stream.length = 0 := by omega
      rw [List.length_eq_zero] at h5
      rw [← h1, h5, List.append_nil, List.append_nil]
    · intro hR hf
      exact background_fuel g lc src dst N fuel hR hf
  intro t ht
  rcases ht with ht | ht
  · subst ht; exact key .backgroundWriter
  · subst ht; exact key .backgroundReader

/-- The short sample stream of five bytes, budget 2, three ticks: `5 <= 3 * 2`,
the third tick is not completed (the loop is inside a read of the drained
source), and the sink holds all five bytes in order. -/
theorem stream_fifo_witness :
    (backgroundWriter sampleConn shortSource sampleSink 3 9).dst.received
        = [10, 11, 12, 13, 14]
    ∧ (backgroundWriter sampleConn shortSource sampleSink 3 9).status = .blocked :=
  ⟨(stream_fifo sampleConn shortSource sampleSink 3 9 _ (Or.inl rfl)).2.2.1
    (by decide) (by decide) (by decide) (by decide) (by decide) (by decide) (by decide)
    (by decide), by decide⟩

/-- C3: in both pacing loops, with a rate budget `R > 0`, after `k` ticks at
most `k * R` bytes have reached the sink, so a loop that has moved `P` bytes
has received at least `ceil (P / R)` ticks. -/
theorem throttle (lc : LatencyConn) (src : Reader) (dst : Writer) (k fuel : Nat)
    (h : 0 < lc.lineRate) :
    ∀ t : Pacer, t = backgroundWriter lc src dst k fuel ∨ t = backgroundReader lc src dst k fuel →
      (t.dst.received.length : Int) ≤ dst.received.length + k * lc.lineRate
      ∧ ∀ P : Nat, dst.received.length + P ≤ t.dst.received.length →
          ⌈(P : ℚ) / (lc.lineRate : ℚ)⌉ ≤ (k : Int) := by
  have key : ∀ g : Goroutine,
      ((background g lc src dst k fuel).dst.received.length : Int)
        ≤ dst.received.length + k * lc.lineRate
      ∧ ∀ P : Nat, dst.received.length + P ≤ (background g lc src dst k fuel).dst.received.length →
          ⌈(P : ℚ) / (lc.lineRate : ℚ)⌉ ≤ (k : Int) := by
    intro g
    have h1 := background_moved g lc src dst k fuel (le_of_lt h)
    refine ⟨h1, fun P hP => ?_⟩
    have h2 : (P : Int) ≤ k * lc.lineRate := by omega
    have h3 : (0 : ℚ) < (lc.lineRate : ℚ) := by exact_mod_cast h
    rw [Int.ceil_le, div_le_iff₀ h3]
    exact_mod_cast h2
  intro t ht
  rcases ht with ht | ht
  · subst ht; exact key .backgroundWriter
  · subst ht; exact key .backgroundReader

/-- Moving the six sample bytes with budget 2 takes at least three ticks. -/
theorem throttle_witness :
    (0 : Int) < sampleConn.lineRate
    ∧ 0 + 6 ≤ (backgroundReader sampleConn sampleSource sampleSink 3 9).dst.received.length
    ∧ ⌈((6 : Nat) : ℚ) / (sampleConn.lineRate : ℚ)⌉ ≤ ((3 : Nat) : Int) :=
  ⟨by decide, by decide,
    (throttle sampleConn sampleSource sampleSink 3 9 (by decide) _ (Or.inr rfl)).2 6 (by decide)⟩


/-! ## The claims about teardown -/

theorem anyError_eq_none (errs : List (Option Error)) :
    anyError errs = none ↔ ∀ e ∈ errs, e = none := by
  induction errs with
  | nil => simp [anyError]
  | cons e errs ih =>
    unfold anyError
    split
    · rename_i hne
      simp [hne]
    · rename_i hne
      have he : e = none := by
        by_contra hc; exact hne hc
      simp [he, ih]

theorem anyError_eq_some (errs : List (Option Error)) (e : Error) :
    anyError errs = some e ↔
      ∃ pre post, errs = pre ++ some e :: post ∧ ∀ x ∈ pre, x = none := by
  induction errs with
  | nil => simp [anyError]
  | cons x errs ih =>
    unfold anyError
    split
    · rename_i hne
      constructor
      · intro hx
        exact ⟨[], errs, by simp [hx], by simp⟩
      · rintro ⟨pre, post, heq, hpre⟩
        cases pre with
        | nil =>
          simp only [List.nil_append, List.cons.injEq] at heq
          exact heq.1
        | cons y pre =>
          simp only [List.cons_append, List.cons.injEq] at heq
          exact absurd (heq.1 ▸ hpre y (List.mem_cons_self _ _)) hne
    · rename_i hne
      have hx : x = none := by
        by_contra hc; exact hne hc
      subst hx
      rw [ih]
      constructor
      · rintro ⟨pre, post, heq, hpre⟩
        refine ⟨none :: pre, post, by simp [heq], ?_⟩
        intro y hy
        rcases List.mem_cons.mp hy with hy | hy
        · exact hy
        · exact hpre y hy
      · rintro ⟨pre, post, heq, hpre⟩
        cases pre with
        | nil => simp at heq
        | cons y pre =>
          simp only [List.cons_append, List.cons.injEq] at heq
          exact ⟨pre, post, heq.2, fun z hz => hpre z (List.mem_cons_of_mem _ hz)⟩

/-- C4: `Close` returns the first error that is not nil, in teardown order,
among the answers of the outbound write end, the inbound write end, the
inbound read end, the outbound read end and the wrapped connection, and nil
exactly when all five answers are nil; for every list of errors `anyError`
returns the first element that is not nil, and nil exactly when every element
is nil. -/
theorem close_first_error (lc : LatencyConn) (res : Teardown → Option Error) :
    ((lc.Close res).1 = none ↔ ∀ s : Teardown, res s = none)
    ∧ (∀ e : Error, (lc.Close res).1 = some e ↔
        ∃ pre post,
          [res .externalWriter, res .internalWriter, res .internalReader, res .externalReader,
            res .wrappedConnection] = pre ++ some e :: post ∧ ∀ x ∈ pre, x = none)
    ∧ (∀ errs : List (Option Error),
        (anyError errs = none ↔ ∀ x ∈ errs, x = none)
        ∧ ∀ e : Error, anyError errs = some e ↔
            ∃ pre post, errs = pre ++ some e :: post ∧ ∀ x ∈ pre, x = none) := by
  have hclose : (lc.Close res).1
      = anyError [res .externalWriter, res .internalWriter, res .internalReader,
          res .externalReader, res .wrappedConnection] := rfl
  refine ⟨?_, ?_, fun errs => ⟨anyError_eq_none errs, anyError_eq_some errs⟩⟩
  · rw [hclose, anyError_eq_none]
    constructor
    · intro h s
      cases s <;> exact h _ (by simp)
    · intro h x hx
      simp only [List.mem_cons, List.mem_singleton, List.not_mem_nil, or_false] at hx
      rcases hx with hx | hx | hx | hx | hx <;> rw [hx] <;> exact h _
  · intro e
    rw [hclose, anyError_eq_some]

/-- With the sample answers `Close` returns error 7, the first one in
teardown order, and not error 9. -/
theorem close_first_error_witness :
    (sampleConn.Close sampleResults).1 = some (.other 7) :=
  ((close_first_error sampleConn sampleResults).2.1 (.other 7)).mpr
    ⟨[none], [none, none, some (.other 9)], rfl, by simp⟩

/-- C5: whatever the five teardown steps answer, `Close` performs each of
them exactly once and in this order: outbound write end, inbound write end,
inbound read end, outbound read end, wrapped connection. -/
theorem close_all_steps (lc : LatencyConn) (res : Teardown → Option Error) :
    (lc.Close res).2.closed
      = lc.closed ++ [.externalWriter, .internalWriter, .internalReader, .externalReader,
          .wrappedConnection] := by
  simp [LatencyConn.Close, LatencyConn.closeOne]

theorem closeWithError_torn (g : Goroutine) (lc : LatencyConn) (err : Error)
    (h : lc.internal.rerr.isSome ∧ lc.external.werr.isSome) :
    (closeWithError g lc err).internal.rerr.isSome
      ∧ (closeWithError g lc err).external.werr.isSome := by
  obtain ⟨h1, h2⟩ := h
  cases g
  · exact ⟨h1, h2⟩
  · refine ⟨?_, h2⟩
    show (onceStore lc.internal.rerr _).isSome
    unfold onceStore
    split <;> rfl

theorem torn_later (later : List (Goroutine × Error)) :
    ∀ lc : LatencyConn, lc.internal.rerr.isSome ∧ lc.external.werr.isSome →
      (later.foldl (fun s ge => closeWithError ge.1 s ge.2) lc).internal.rerr.isSome
      ∧ (later.foldl (fun s ge => closeWithError ge.1 s ge.2) lc).external.werr.isSome := by
  induction later with
  | nil => intro lc h; exact h
  | cons ge later ih =>
    intro lc h
    exact ih _ (closeWithError_torn ge.1 lc ge.2 h)

theorem torn_calls (lc : LatencyConn) (h : lc.internal.rerr.isSome ∧ lc.external.werr.isSome) :
    lc.Read = .returns 0 .ErrClosedPipe ∧ lc.Write = .returns 0 .ErrClosedPipe := by
  obtain ⟨h1, h2⟩ := h
  obtain ⟨a, ha⟩ := Option.isSome_iff_exists.mp h1
  obtain ⟨b, hb⟩ := Option.isSome_iff_exists.mp h2
  constructor
  · simp [LatencyConn.Read, Pipe.read, Pipe.done, Pipe.readCloseError, ha]
  · simp [LatencyConn.Write, Pipe.write, Pipe.done, Pipe.writeCloseError, hb]

theorem close_torn (lc : LatencyConn) (res : Teardown → Option Error) :
    (lc.Close res).2.internal.rerr.isSome ∧ (lc.Close res).2.external.werr.isSome := by
  constructor
  · show (onceStore _ _).isSome
    unfold onceStore
    split <;> rfl
  · show (onceStore _ _).isSome
    unfold onceStore
    split <;> rfl

/-- C8: after `Close`, whatever the state of the pipes was before and whatever
the teardown steps answered, `Read` and `Write` of the decorator return
`(0, io.ErrClosedPipe)` at once, and they still do after any later
`CloseWithError` of the pacing goroutines. -/
theorem closed_io_fails (lc : LatencyConn) (res : Teardown → Option Error)
    (later : List (Goroutine × Error)) :
    ((lc.Close res).2.Read = .returns 0 .ErrClosedPipe
      ∧ (lc.Close res).2.Write = .returns 0 .ErrClosedPipe)
    ∧ (later.foldl (fun s ge => closeWithError ge.1 s ge.2) (lc.Close res).2).Read
        = .returns 0 .ErrClosedPipe
    ∧ (later.foldl (fun s ge => closeWithError ge.1 s ge.2) (lc.Close res).2).Write
        = .returns 0 .ErrClosedPipe :=
  ⟨torn_calls _ (close_torn lc res), torn_calls _ (torn_later later _ (close_torn lc res))⟩


/-! ## The claims about construction and about failures of the copy -/

/-- C9 as stated fails: with quantum `0` the constructor reports nothing, it
returns a decorator and has started both pacing goroutines. -/
theorem newLatencyConn_zero_quantum :
    NewLatencyConn 1024 0
      = .ok ({ lineRate := 1024, quantum := 0, internal := Pipe.new, external := Pipe.new,
               closed := [] }, [.backgroundWriter, .backgroundReader]) := rfl

/-- C9, amended: `NewLatencyConn` checks nothing and has no error result: for
every quantum it returns a decorator that stores the quantum as given and
starts both pacing goroutines; with a quantum `<= 0` each pacing goroutine
panics in `time.NewTicker` before it takes a tick or copies a byte. -/
theorem newLatencyConn_unchecked (LineRate Quantum : Int) :
    ∃ lc : LatencyConn,
      NewLatencyConn LineRate Quantum = .ok (lc, [.backgroundWriter, .backgroundReader])
      ∧ lc.lineRate = LineRate ∧ lc.quantum = Quantum
      ∧ (Quantum ≤ 0 → ∀ (src : Reader) (dst : Writer) (ticks fuel : Nat) (t : Pacer),
          t = backgroundWriter lc src dst ticks fuel ∨ t = backgroundReader lc src dst ticks fuel →
          t.status = .panicked "non-positive interval for NewTicker"
          ∧ t.src = src ∧ t.dst = dst ∧ t.trace = []) := by
  refine ⟨_, rfl, rfl, rfl, ?_⟩
  intro hq src dst ticks fuel t ht
  have key : ∀ g : Goroutine,
      background g { lineRate := LineRate, quantum := Quantum, internal := Pipe.new,
                     external := Pipe.new, closed := [] } src dst ticks fuel
        = { lc := { lineRate := LineRate, quantum := Quantum, internal := Pipe.new,
                    external := Pipe.new, closed := [] },
            src := src, dst := dst, status := .panicked "non-positive interval for NewTicker",
            trace := [] } := by
    intro g
    simp [background, NewTicker, hq]
  rcases ht with ht | ht
  · rw [ht, backgroundWriter, key]; exact ⟨rfl, rfl, rfl, rfl⟩
  · rw [ht, backgroundReader, key]; exact ⟨rfl, rfl, rfl, rfl⟩

/-- With quantum -5 the constructor returns a decorator whose inbound
goroutine panics and leaves the sink untouched. -/
theorem newLatencyConn_unchecked_witness :
    ∃ lc : LatencyConn,
      NewLatencyConn 1024 (-5) = .ok (lc, [.backgroundWriter, .backgroundReader])
      ∧ (backgroundReader lc sampleSource sampleSink 3 9).status
          = .panicked "non-positive interval for NewTicker"
      ∧ (backgroundReader lc sampleSource sampleSink 3 9).dst = sampleSink := by
  obtain ⟨lc, h1, -, -, h2⟩ := newLatencyConn_unchecked 1024 (-5)
  have h3 := h2 (by decide) sampleSource sampleSink 3 9 _ (Or.inr rfl)
  exact ⟨lc, h1, h3.1, h3.2.2.1⟩

/-- C6 at the failing input: the first `Read` of the wrapped connection fails
with error 104.  `backgroundReader` returns after
`lc.internalReader.CloseWithError(err)`, and `Read` of the decorator then
answers `io.ErrClosedPipe`, not error 104; `backgroundWriter`, given the same
failure, makes `Write` of the decorator answer error 104. -/
theorem inbound_error_not_delivered :
    (backgroundReader sampleConn failingSource sampleSink 1 1).status = .returned (.other 104)
    ∧ (backgroundReader sampleConn failingSource sampleSink 1 1).lc.Read
        = .returns 0 .ErrClosedPipe
    ∧ (backgroundWriter sampleConn failingSource sampleSink 1 1).status = .returned (.other 104)
    ∧ (backgroundWriter sampleConn failingSource sampleSink 1 1).lc.Write
        = .returns 0 (.other 104) := by
  decide

theorem Copy_eof (dst : Writer) (n : Nat) {N : Int} (hN : 0 < N) :
    Copy dst (eofSource (n + 1)) N = ⟨0, .returned none, eofSource n, dst⟩ := by
  have hN2 : ¬ N ≤ 0 := by omega
  simp [Copy, eofSource, List.replicate_succ, copyBuffer, hN2, ReadEvent.count]

theorem stillHaveBytes_eof (g : Goroutine) (n : Nat) :
    ∀ (lc : LatencyConn) (dst : Writer) (st : Status) (tr : List Event) (rb : Int), 0 < rb →
      stillHaveBytes g n rb { lc := lc, src := eofSource n, dst := dst, status := st, trace := tr }
        = { lc := lc, src := eofSource 0, dst := dst, status := .spinning,
            trace := tr ++ List.replicate n (.copy 0 none) } := by
  induction n with
  | zero => intro lc dst st tr rb _; simp [stillHaveBytes]
  | succ n ih =>
    intro lc dst st tr rb hrb
    have hne : rb ≠ 0 := by omega
    unfold stillHaveBytes
    simp only [Copy_eof dst n hrb, sub_zero, ne_eq, hne, not_false_eq_true, if_true]
    rw [ih lc dst st _ rb hrb, List.replicate_succ]
    simp

/-- C7 at the failing input: the wrapped connection is at end-of-stream (each
`Read` answers `(0, io.EOF)`) and the rate budget is 2.  However many copies
are observed, the inbound loop is still at the label `stillHaveBytes` of its
first tick: it has not returned, it has called `io.Copy` again each time
without a new tick, it has closed no pipe end and written nothing, so `Read`
of the decorator still waits. -/
theorem inbound_eof_spins (n : Nat) :
    (backgroundReader sampleConn (eofSource n) sampleSink 1 n).status = .spinning
    ∧ (backgroundReader sampleConn (eofSource n) sampleSink 1 n).trace
        = .tick :: List.replicate n (.copy 0 none)
    ∧ (backgroundReader sampleConn (eofSource n) sampleSink 1 n).dst = sampleSink
    ∧ (backgroundReader sampleConn (eofSource n) sampleSink 1 n).lc.Read = .waits := by
  have h : backgroundReader sampleConn (eofSource n) sampleSink 1 n
      = { lc := sampleConn, src := eofSource 0, dst := sampleSink, status := .spinning,
          trace := [.tick] ++ List.replicate n (.copy 0 none) } := by
    show stillHaveBytes .backgroundReader n 2 _ = _
    exact stillHaveBytes_eof .backgroundReader n sampleConn sampleSink _ _ 2 (by decide)
  rw [h]
  exact ⟨rfl, rfl, rfl, rfl⟩

theorem stillHaveBytes_negative (g : Goroutine) (n : Nat) :
    ∀ (t : Pacer) (rb : Int), rb < 0 →
      stillHaveBytes g n rb t
        = { t with status := .spinning, trace := t.trace ++ List.replicate n (.copy 0 none) } := by
  induction n with
  | zero => intro t rb _; simp [stillHaveBytes]
  | succ n ih =>
    intro t rb hrb
    have hne : rb ≠ 0 := by omega
    have hc : Copy t.dst t.src rb = ⟨0, .returned none, t.src, t.dst⟩ :=
      copyBuffer_nonpos t.dst t.src.stream 0 t.src.script (le_of_lt hrb)
    unfold stillHaveBytes
    simp only [hc, sub_zero, ne_eq, hne, not_false_eq_true, if_true]
    rw [ih _ rb hrb, List.replicate_succ]
    simp

/-- C10 at the failing inputs.  With rate budget 2 and a source that is at
its end (each `Read` answers `(0, io.EOF)`), in both loops every copy of the
first tick moves 0 bytes and reports no error, and the loop copies again each
time, without a new tick: `n` copies out of `n` observed.  With rate budget
-1 the same happens whatever the source and the sink do. -/
theorem zero_byte_copy_repeats (n : Nat) (src : Reader) (dst : Writer) :
    ((backgroundWriter sampleConn (eofSource n) sampleSink 1 n).trace
        = .tick :: List.replicate n (.copy 0 none)
      ∧ (backgroundWriter sampleConn (eofSource n) sampleSink 1 n).status = .spinning)
    ∧ ((backgroundReader sampleConn (eofSource n) sampleSink 1 n).trace
        = .tick :: List.replicate n (.copy 0 none)
      ∧ (backgroundReader sampleConn (eofSource n) sampleSink 1 n).status = .spinning)
    ∧ ((backgroundWriter negativeConn src dst 1 n).trace
        = .tick :: List.replicate n (.copy 0 none)
      ∧ (backgroundWriter negativeConn src dst 1 n).status = .spinning)
    ∧ ((backgroundReader negativeConn src dst 1 n).trace
        = .tick :: List.replicate n (.copy 0 none)
      ∧ (backgroundReader negativeConn src dst 1 n).status = .spinning) := by
  have eof : ∀ g : Goroutine, background g sampleConn (eofSource n) sampleSink 1 n
      = { lc := sampleConn, src := eofSource 0, dst := sampleSink, status := .spinning,
          trace := [.tick] ++ List.replicate n (.copy 0 none) } := by
    intro g
    show stillHaveBytes g n 2 _ = _
    exact stillHaveBytes_eof g n sampleConn sampleSink _ _ 2 (by decide)
  have neg : ∀ g : Goroutine, background g negativeConn src dst 1 n
      = { lc := negativeConn, src := src, dst := dst, status := .spinning,
          trace := [.tick] ++ List.replicate n (.copy 0 none) } := by
    intro g
    show stillHaveBytes g n (-1) _ = _
    rw [stillHaveBytes_negative g n _ (-1) (by decide)]
    rfl
  refine ⟨?_, ?_, ?_, ?_⟩
  · rw [backgroundWriter, eof]; exact ⟨rfl, rfl⟩
  · rw [backgroundReader, eof]; exact ⟨rfl, rfl⟩
  · rw [backgroundWriter, neg]; exact ⟨rfl, rfl⟩
  · rw [backgroundReader, neg]; exact ⟨rfl, rfl⟩

end Connectors
